import Mathlib

/- Verification of the education-card query-matching and text-segmentation
engine. Strings are modelled as `List Char`; JavaScript `toLowerCase` is
modelled by `Char.toLower` per character, `trim` by dropping whitespace at
both ends, and `String.prototype.includes` by an executable substring test.
The regular-expression scan of `highlightText` is modelled by a literal
interpreter for the escaped patterns produced by `escRx` together with a
fuelled left-to-right non-overlapping occurrence loop mirroring the
`re.exec` loop of the source. -/

set_option maxRecDepth 4096

/-- JS `s.toLowerCase()` on a list of characters. -/
def lower (l : List Char) : List Char := l.map Char.toLower

/-- JS `s.trim()`: drop whitespace at both ends. -/
def jsTrim (l : List Char) : List Char :=
  ((l.dropWhile Char.isWhitespace).reverse.dropWhile Char.isWhitespace).reverse

/-- `startsL hay needle`: `hay` begins with `needle`. -/
def startsL : List Char → List Char → Bool
  | _, [] => true
  | [], _ :: _ => false
  | a :: as, b :: bs => (a == b) && startsL as bs

/-- JS `hay.includes(needle)`: `needle` occurs as a contiguous substring. -/
def includes : List Char → List Char → Bool
  | [], needle => startsL [] needle
  | hay@(_ :: t), needle => startsL hay needle || includes t needle

/-- The filter body at line 43 of the source:
`k.toLowerCase().includes(lq) || lq.includes(k.toLowerCase())`
with `lq = query.toLowerCase()`. -/
def matchRel (c q : List Char) : Bool :=
  includes (lower c) (lower q) || includes (lower q) (lower c)

/-- `targetKeywords` (spec 4.2): the guard `if (!query) return text` of
`highlightText` followed by `KW_KEYS.filter(k => ...)` at line 43. -/
def targetKeywords (query : List Char) (kwKeys : List (List Char)) : List (List Char) :=
  if query = [] then [] else kwKeys.filter (fun k => matchRel k query)

/-- `matchedTags` of `renderCards` (lines 96-98):
`lq ? tags.filter(tag => tag.toLowerCase().includes(lq) || lq.includes(tag.toLowerCase())) : []`
with `lq = query.toLowerCase().trim()`. -/
def matchedTagsOf (tags : List (List Char)) (query : List Char) : List (List Char) :=
  let lq := jsTrim (lower query)
  if lq = [] then []
  else tags.filter (fun tag => includes (lower tag) lq || includes lq (lower tag))

/-- `isMatch = matchedTags.length > 0` (line 100). -/
def isMatchOf (tags : List (List Char)) (query : List Char) : Bool :=
  !(matchedTagsOf tags query).isEmpty

/-- `isDim = lq && !isMatch` (line 101). -/
def isDimOf (tags : List (List Char)) (query : List Char) : Bool :=
  !(jsTrim (lower query)).isEmpty && !(isMatchOf tags query)

/-- `matchedTags.some(m => m.toLowerCase() === tag.toLowerCase())` (line 113). -/
def isTagMatch (matched : List (List Char)) (tag : List Char) : Bool :=
  matched.any (fun m => lower m == lower tag)

/-- The character class of `escRx`: `[.*+?^${}()|[\]\\]`. -/
def isRegexMeta (c : Char) : Bool :=
  c == '.' || c == '*' || c == '+' || c == '?' || c == '^' || c == '$' || c == '{' ||
  c == '}' || c == '(' || c == ')' || c == '|' || c == '[' || c == ']' || c == '\\'

/-- `escRx` (line 36): `s.replace(/[.*+?^${}()|[\]\\]/g, '\\$&')`. -/
def escRx : List Char → List Char
  | [] => []
  | c :: t => (if isRegexMeta c then ['\\', c] else [c]) ++ escRx t

/-- Interpreter for regular-expression patterns that denote a literal string:
a backslash-escaped metacharacter stands for itself and a plain
non-metacharacter stands for itself; any pattern using an unescaped
metacharacter (pattern behaviour) or a stray trailing backslash (syntax
error) is rejected with `none`. When this returns `some lit`, a regex
engine running the pattern behaves exactly as a literal search for `lit`. -/
def litPattern : List Char → Option (List Char)
  | [] => some []
  | c :: rest =>
    if c == '\\' then
      match rest with
      | [] => none
      | d :: rest2 => if isRegexMeta d then (litPattern rest2).map (fun l => d :: l) else none
    else if isRegexMeta c then none
    else (litPattern rest).map (fun l => c :: l)

/-- One entry of `highlightText`'s `parts` list: `{s, raw}`; `raw = true`
is a plain span, `raw = false` a highlighted span. -/
structure Seg where
  s : List Char
  raw : Bool
deriving DecidableEq, Repr

/-- A case-insensitive literal match of `lkw` at position `i` of `ls`. -/
def matchesAt (lkw ls : List Char) (i : Nat) : Bool :=
  decide (lower ((ls.drop i).take lkw.length) = lower lkw)

/-- Position of the leftmost case-insensitive occurrence of `lkw` in `ls` at
or after `pos`: the behaviour of `re.exec` with `re.lastIndex = pos` for a
literal case-insensitive pattern. -/
def findFrom (lkw ls : List Char) (pos : Nat) : Option Nat :=
  (List.range (ls.length + 1)).find? (fun i => decide (pos ≤ i) && matchesAt lkw ls i)

/-- The `while ((m = re.exec(part.s)) !== null)` loop (lines 56-61),
fuelled: each iteration emits the plain prefix before the match (if any)
and the matched span, then continues after the match; when no further
occurrence exists the plain tail (if any) is emitted. `none` means the
fuel ran out, i.e. the concrete loop has not finished within that many
iterations. -/
def scanLoop (lkw ls : List Char) : Nat → Nat → Option (List Seg)
  | 0, _ => none
  | fuel + 1, last =>
    match findFrom lkw ls last with
    | none => some (if last < ls.length then [⟨ls.drop last, true⟩] else [])
    | some i =>
      (scanLoop lkw ls fuel (i + lkw.length)).map (fun rest =>
        (if last < i then [⟨(ls.drop last).take (i - last), true⟩] else []) ++
        (⟨(ls.drop i).take lkw.length, false⟩ :: rest))

/-- `new RegExp(pat, 'gi')` followed by the exec loop, for the patterns the
source builds: interpret `pat` as a literal and scan. -/
def regexScan (pat : List Char) (s : List Char) (fuel : Nat) : Option (List Seg) :=
  match litPattern pat with
  | none => none
  | some lit => scanLoop lit s fuel 0

/-- The per-part body of `parts.flatMap` (lines 50-63): a highlighted part
passes through unchanged; a plain part is scanned with the escaped keyword,
and `segs.length ? segs : [part]` keeps an empty result as the part. -/
def processPart (kw : List Char) (fuel : Nat) (p : Seg) : Option (List Seg) :=
  if p.raw then
    (regexScan (escRx kw) p.s fuel).map (fun segs => if segs.isEmpty then [p] else segs)
  else some [p]

/-- `parts = parts.flatMap(...)` for one keyword. -/
def applyKw (kw : List Char) (fuel : Nat) : List Seg → Option (List Seg)
  | [] => some []
  | p :: ps =>
    match processPart kw fuel p, applyKw kw fuel ps with
    | some a, some b => some (a ++ b)
    | _, _ => none

/-- `targets.forEach(kw => ...)` (line 48): apply each keyword in order. -/
def runKws (fuel : Nat) : List (List Char) → List Seg → Option (List Seg)
  | [], parts => some parts
  | kw :: rest, parts => (applyKw kw fuel parts).bind (runKws fuel rest)

/-- `segment` (spec 4.3): start from a single plain part holding `text`
(line 47) and run every target keyword over it. -/
def segmentFuel (text : List Char) (targets : List (List Char)) (fuel : Nat) :
    Option (List Seg) :=
  runKws fuel targets [⟨text, true⟩]

/-- `highlightText` (lines 40-65) up to its parts list: empty query or no
targets returns the text as a single plain part. -/
def highlightParts (kwKeys : List (List Char)) (text query : List Char) (fuel : Nat) :
    Option (List Seg) :=
  if query = [] then some [⟨text, true⟩]
  else
    let targets := targetKeywords query kwKeys
    if targets = [] then some [⟨text, true⟩]
    else segmentFuel text targets fuel

/-- `highlightText`'s final join (line 67). -/
def highlightText (kwKeys : List (List Char)) (text query : List Char) (fuel : Nat) :
    Option (List Char) :=
  (highlightParts kwKeys text query fuel).map (fun ps =>
    (ps.map (fun p =>
      if p.raw then p.s else "<span class=\"kw\">".data ++ p.s ++ "</span>".data)).flatten)

/-- One step of filling a JS `Set`: add `a` at the end unless present. -/
def insertIfNew {α : Type} [DecidableEq α] (seen : List α) (a : α) : List α :=
  if a ∈ seen then seen else seen ++ [a]

/-- `[...new Set(l)]`: distinct values in first-seen order. -/
def setDedup {α : Type} [DecidableEq α] (l : List α) : List α :=
  l.foldl insertIfNew []

/-- Modelled from the spec: "returns the ordered set of distinct values,
preserving first-seen order" as a direct recursion — keep the head, then
deduplicate the tail with all copies of the head removed. Used to compare
against the `Set`-based `setDedup` of the source. -/
def dedupFirstSpec {α : Type} [DecidableEq α] : List α → List α
  | [] => []
  | a :: l => a :: dedupFirstSpec (l.filter (fun b => decide ¬(b = a)))
termination_by l => l.length
decreasing_by
  simp only [List.length_cons]
  exact Nat.lt_succ_of_le (List.length_filter_le _ _)

/-- A card as the engine sees it: grid position, optional tag list
(`card.tags || []` treats an absent list as empty), and searchable text. -/
structure Card where
  row : Int
  col : Option Int
  tags : Option (List (List Char))
  text : List Char
deriving DecidableEq, Repr

/-- `buildKeywordIndex` (lines 20-21):
`allTags = CARDS_DATA.flatMap(c => c.tags || []); KW_KEYS = [...new Set(allTags)]`. -/
def buildKeywordIndex (cards : List Card) : List (List Char) :=
  setDedup ((cards.map (fun c => c.tags.getD [])).flatten)

/-- `(card.col || 1)` (line 88): absent (and falsy `0`) become `1`. -/
def colOr1 (c : Card) : Int :=
  match c.col with
  | none => 1
  | some v => if v = 0 then 1 else v

/-- `row.sort((a, b) => (a.col || 1) - (b.col || 1))`: a stable ascending
sort on the defaulted column. -/
def sortByCol (l : List Card) : List Card :=
  List.insertionSort (fun a b => colOr1 a ≤ colOr1 b) l

/-- `Object.keys(ROWS_MAP).sort((a, b) => +a - +b)`: the distinct row
values in ascending numeric order. -/
def rowKeysSorted (cards : List Card) : List Int :=
  List.insertionSort (fun a b => a ≤ b) (setDedup (cards.map Card.row))

/-- `renderView` (spec 4.4) restricted to ordering: group the cards by row
value (each group in corpus order, as `ROWS_MAP` pushes preserve it), rows
ascending, each row sorted by defaulted column. -/
def renderView (cards : List Card) : List (List Card) :=
  (rowKeysSorted cards).map (fun r => sortByCol (cards.filter (fun c => decide (c.row = r))))

/-- `startsL hay needle` holds exactly when `needle` is an initial run of `hay`. -/
theorem startsL_iff : ∀ hay needle : List Char, startsL hay needle = true ↔ ∃ r, hay = needle ++ r
  | hay, [] => by simp [startsL]
  | [], _ :: _ => by simp [startsL]
  | a :: as, b :: bs => by
    simp only [startsL, Bool.and_eq_true, beq_iff_eq, startsL_iff as bs, List.cons_append,
      List.cons.injEq]
    constructor
    · rintro ⟨rfl, r, rfl⟩
      exact ⟨r, rfl, rfl⟩
    · rintro ⟨r, rfl, rfl⟩
      exact ⟨rfl, r, rfl⟩

/-- `includes hay needle` holds exactly when `needle` occurs contiguously in `hay`. -/
theorem includes_iff : ∀ hay needle : List Char,
    includes hay needle = true ↔ ∃ l r, hay = l ++ needle ++ r
  | [], needle => by
    rw [includes, startsL_iff]
    constructor
    · rintro ⟨r, h⟩
      exact ⟨[], r, h⟩
    · rintro ⟨l, r, h⟩
      rcases List.append_eq_nil.mp h.symm with ⟨h1, rfl⟩
      rcases List.append_eq_nil.mp h1 with ⟨rfl, rfl⟩
      exact ⟨[], rfl⟩
  | a :: t, needle => by
    rw [includes, Bool.or_eq_true, startsL_iff, includes_iff t needle]
    constructor
    · rintro (⟨r, h⟩ | ⟨l, r, h⟩)
      · exact ⟨[], r, by simpa using h⟩
      · exact ⟨a :: l, r, by simp [h]⟩
    · rintro ⟨l, r, h⟩
      cases l with
      | nil => exact Or.inl ⟨r, by simpa using h⟩
      | cons x xs =>
        rw [List.cons_append, List.cons_append] at h
        injection h with h1 h2
        exact Or.inr ⟨xs, r, by simpa using h2⟩

/-- `Char.ofNat` at a valid code point keeps the code point. -/
theorem toNat_ofNat_valid {n : Nat} (h : n.isValidChar) : (Char.ofNat n).toNat = n := by
  rw [Char.ofNat, dif_pos h]
  rfl

/-- Code point of `Char.toLower`: uppercase ASCII letters shift by 32. -/
theorem toLower_toNat (c : Char) :
    (Char.toLower c).toNat = if c.toNat ≥ 65 ∧ c.toNat ≤ 90 then c.toNat + 32 else c.toNat := by
  by_cases h : c.toNat ≥ 65 ∧ c.toNat ≤ 90
  · have hv : Nat.isValidChar (c.toNat + 32) := Or.inl (by omega)
    rw [if_pos h]
    simp only [Char.toLower]
    rw [if_pos h]
    exact toNat_ofNat_valid hv
  · rw [if_neg h]
    simp only [Char.toLower]
    rw [if_neg h]

/-- Outside the uppercase ASCII range `Char.toLower` is the identity. -/
theorem toLower_eq_self {c : Char} (h : ¬(c.toNat ≥ 65 ∧ c.toNat ≤ 90)) : Char.toLower c = c := by
  simp only [Char.toLower]
  rw [if_neg h]

/-- JS `toLowerCase` is idempotent character-wise. -/
theorem toLower_toLower (c : Char) : Char.toLower (Char.toLower c) = Char.toLower c := by
  by_cases h : c.toNat ≥ 65 ∧ c.toNat ≤ 90
  · have ht : (Char.toLower c).toNat = c.toNat + 32 := by rw [toLower_toNat, if_pos h]
    exact toLower_eq_self (by omega)
  · rw [toLower_eq_self h]
    exact toLower_eq_self h

/-- A character whose code point is none of the four whitespace points is
not whitespace. -/
theorem isWhitespace_eq_false {c : Char}
    (h : c.toNat ≠ 32 ∧ c.toNat ≠ 9 ∧ c.toNat ≠ 13 ∧ c.toNat ≠ 10) :
    c.isWhitespace = false := by
  simp only [Char.isWhitespace, Bool.or_eq_false_iff, decide_eq_false_iff_not]
  refine ⟨⟨⟨fun he => ?_, fun he => ?_⟩, fun he => ?_⟩, fun he => ?_⟩ <;> subst he <;> simp_all

/-- Case folding does not create or destroy whitespace. -/
theorem isWhitespace_toLower (c : Char) : (Char.toLower c).isWhitespace = c.isWhitespace := by
  by_cases h : c.toNat ≥ 65 ∧ c.toNat ≤ 90
  · have ht : (Char.toLower c).toNat = c.toNat + 32 := by rw [toLower_toNat, if_pos h]
    rw [isWhitespace_eq_false (by omega), isWhitespace_eq_false (by omega)]
  · rw [toLower_eq_self h]

/-- Case folding a list twice equals folding once. -/
theorem lower_lower (l : List Char) : lower (lower l) = lower l := by
  simp only [lower, List.map_map]
  exact List.map_congr_left fun a _ => toLower_toLower a

/-- `dropWhile` commutes with `map` by composing the predicate. -/
theorem dropWhile_map (f : Char → Char) (p : Char → Bool) (l : List Char) :
    (l.map f).dropWhile p = (l.dropWhile fun c => p (f c)).map f := by
  induction l with
  | nil => rfl
  | cons a t ih => by_cases h : p (f a) <;> simp [List.dropWhile_cons, h, ih]

/-- Case folding commutes with trimming. -/
theorem lower_jsTrim (l : List Char) : lower (jsTrim l) = jsTrim (lower l) := by
  have hp : (fun c => Char.isWhitespace (Char.toLower c)) = Char.isWhitespace :=
    funext isWhitespace_toLower
  simp only [jsTrim, lower]
  rw [dropWhile_map, hp, ← List.map_reverse, dropWhile_map, hp, ← List.map_reverse]

/-- The normalized query `lq = query.toLowerCase().trim()` is a fixed point
of case folding. -/
theorem lower_jsTrim_lower (q : List Char) :
    lower (jsTrim (lower q)) = jsTrim (lower q) := by
  rw [lower_jsTrim, lower_lower]

/-- A non-metacharacter is in particular not a backslash. -/
theorem not_backslash_of_not_meta {c : Char} (h : isRegexMeta c = false) :
    (c == '\\') = false := by
  simp only [isRegexMeta, Bool.or_eq_false_iff] at h
  exact h.2

/-- The pattern `escRx` builds is always interpreted as the literal keyword:
escaping never fails and never produces pattern behaviour. -/
theorem litPattern_escRx (s : List Char) : litPattern (escRx s) = some s := by
  induction s with
  | nil => rfl
  | cons c t ih =>
    by_cases h : isRegexMeta c = true
    · simp only [escRx, h, if_true, List.cons_append, List.nil_append, List.singleton_append]
      simp only [litPattern, beq_self_eq_true, if_true, h, ih, Option.map_some']
    · have hf : isRegexMeta c = false := by revert h; cases isRegexMeta c <;> simp
      have hb := not_backslash_of_not_meta hf
      simp only [escRx, hf, Bool.false_eq_true, if_false, List.singleton_append]
      rw [litPattern.eq_def]
      simp only [hb, Bool.false_eq_true, if_false, hf, ih, Option.map_some']

/-- What a successful `findFrom` guarantees: the position is at or after the
start and carries a case-insensitive match. -/
theorem findFrom_some {lkw ls : List Char} {pos i : Nat} (h : findFrom lkw ls pos = some i) :
    pos ≤ i ∧ matchesAt lkw ls i = true := by
  have hp := List.find?_some h
  simp only [Bool.and_eq_true, decide_eq_true_eq] at hp
  exact ⟨hp.1, hp.2⟩

/-- Splitting off a case-insensitive match keeps the characters: the matched
span plus the tail after it is the tail at the match. -/
theorem take_len_append_drop (L i : Nat) (ls : List Char) :
    (ls.drop i).take L ++ ls.drop (i + L) = ls.drop i := by
  rw [← List.drop_drop]
  exact List.take_append_drop _ _

/-- The plain span before a match plus the tail at the match is the whole
remaining tail. -/
theorem take_sub_append_drop {last i : Nat} (ls : List Char) (hle : last ≤ i) :
    (ls.drop last).take (i - last) ++ ls.drop i = ls.drop last := by
  have h2 : (ls.drop last).take (i - last) ++ ls.drop (last + (i - last)) = ls.drop last := by
    rw [← List.drop_drop]
    exact List.take_append_drop _ _
  rwa [Nat.add_sub_cancel' hle] at h2

/-- Round trip of the exec loop: the emitted spans concatenate to the
unscanned tail of the input. -/
theorem scanLoop_flatten {lkw ls : List Char} :
    ∀ {fuel last segs}, scanLoop lkw ls fuel last = some segs →
      (segs.map Seg.s).flatten = ls.drop last := by
  intro fuel
  induction fuel with
  | zero =>
    intro last segs h
    simp [scanLoop] at h
  | succ n ih =>
    intro last segs h
    simp only [scanLoop] at h
    cases hf : findFrom lkw ls last with
    | none =>
      simp only [hf] at h
      by_cases hl : last < ls.length
      · rw [if_pos hl] at h
        cases h
        simp
      · rw [if_neg hl] at h
        cases h
        simp [List.drop_eq_nil_of_le (Nat.le_of_not_lt hl)]
    | some i =>
      simp only [hf] at h
      obtain ⟨hle, _⟩ := findFrom_some hf
      cases hs : scanLoop lkw ls n (i + lkw.length) with
      | none =>
        rw [hs] at h
        simp at h
      | some rest =>
        rw [hs] at h
        simp only [Option.map_some', Option.some.injEq] at h
        subst h
        have hrest := ih hs
        by_cases hli : last < i
        · simp only [if_pos hli, List.map_append, List.flatten_append, List.map_cons,
            List.flatten_cons, List.map_nil, List.flatten_nil, List.append_nil]
          rw [hrest, take_len_append_drop, take_sub_append_drop ls hle]
        · have hei : i = last := Nat.le_antisymm (Nat.le_of_not_lt hli) hle
          subst hei
          simp only [if_neg hli, List.nil_append, List.map_cons, List.flatten_cons]
          rw [hrest, take_len_append_drop]

/-- Every highlighted span the exec loop emits is a case-insensitive copy of
the scanned keyword. -/
theorem scanLoop_hl {lkw ls : List Char} :
    ∀ {fuel last segs}, scanLoop lkw ls fuel last = some segs →
      ∀ q ∈ segs, q.raw = false → lower q.s = lower lkw := by
  intro fuel
  induction fuel with
  | zero =>
    intro last segs h
    simp [scanLoop] at h
  | succ n ih =>
    intro last segs h
    simp only [scanLoop] at h
    cases hf : findFrom lkw ls last with
    | none =>
      simp only [hf] at h
      by_cases hl : last < ls.length
      · rw [if_pos hl] at h
        cases h
        intro q hq hraw
        simp at hq
        subst hq
        simp at hraw
      · rw [if_neg hl] at h
        cases h
        intro q hq
        simp at hq
    | some i =>
      simp only [hf] at h
      obtain ⟨_, hm⟩ := findFrom_some hf
      cases hs : scanLoop lkw ls n (i + lkw.length) with
      | none =>
        rw [hs] at h
        simp at h
      | some rest =>
        rw [hs] at h
        simp only [Option.map_some', Option.some.injEq] at h
        subst h
        intro q hq hraw
        rw [List.mem_append] at hq
        rcases hq with hq | hq
        · by_cases hli : last < i
          · rw [if_pos hli] at hq
            simp at hq
            subst hq
            simp at hraw
          · rw [if_neg hli] at hq
            simp at hq
        · rcases List.mem_cons.mp hq with hq | hq
          · subst hq
            exact of_decide_eq_true hm
          · exact ih hs q hq hraw

/-- With the empty keyword the exec loop never finishes: an empty match is
found at the current position and `lastIndex` never advances, for any
amount of fuel. -/
theorem scanLoop_nil_zero (ls : List Char) : ∀ fuel, scanLoop [] ls fuel 0 = none := by
  have hfind : findFrom [] ls 0 = some 0 := by
    rw [findFrom, List.range_succ_eq_map]
    simp [matchesAt, lower]
  intro fuel
  induction fuel with
  | zero => rfl
  | succ n ih =>
    simp only [scanLoop, hfind]
    simpa using ih

/-- A highlighted part passes through one keyword pass untouched (lines
50-51 of the source: `if (!part.raw) return [part]`). -/
theorem processPart_notRaw {kw : List Char} {fuel : Nat} {p : Seg} (h : p.raw = false) :
    processPart kw fuel p = some [p] := by
  rw [processPart, h]
  rfl

/-- One keyword pass over one part keeps the characters. -/
theorem processPart_flatten {kw : List Char} {fuel : Nat} {p : Seg} {out : List Seg}
    (h : processPart kw fuel p = some out) : (out.map Seg.s).flatten = p.s := by
  rw [processPart] at h
  by_cases hr : p.raw
  · rw [if_pos hr, regexScan] at h
    simp only [litPattern_escRx] at h
    cases hs : scanLoop kw p.s fuel 0 with
    | none => rw [hs] at h; simp at h
    | some segs =>
      rw [hs] at h
      simp only [Option.map_some', Option.some.injEq] at h
      subst h
      have hj : (segs.map Seg.s).flatten = p.s := by
        simpa using scanLoop_flatten hs
      by_cases he : segs.isEmpty
      · rw [if_pos he]
        simp
      · rw [if_neg he]
        exact hj
  · rw [if_neg hr] at h
    cases h
    simp

/-- Every highlighted span produced by one keyword pass over one part is
either the part itself or a case-insensitive copy of the keyword. -/
theorem processPart_hl {kw : List Char} {fuel : Nat} {p : Seg} {out : List Seg}
    (h : processPart kw fuel p = some out) :
    ∀ q ∈ out, q.raw = false → q = p ∨ lower q.s = lower kw := by
  rw [processPart] at h
  by_cases hr : p.raw
  · rw [if_pos hr, regexScan] at h
    simp only [litPattern_escRx] at h
    cases hs : scanLoop kw p.s fuel 0 with
    | none => rw [hs] at h; simp at h
    | some segs =>
      rw [hs] at h
      simp only [Option.map_some', Option.some.injEq] at h
      subst h
      intro q hq hraw
      by_cases he : segs.isEmpty
      · rw [if_pos he] at hq
        simp at hq
        exact Or.inl hq
      · rw [if_neg he] at hq
        exact Or.inr (scanLoop_hl hs q hq hraw)
  · rw [if_neg hr] at h
    cases h
    intro q hq _
    simp at hq
    exact Or.inl hq

/-- One keyword pass over a parts list keeps the characters. -/
theorem applyKw_flatten {kw : List Char} {fuel : Nat} :
    ∀ {parts out : List Seg}, applyKw kw fuel parts = some out →
      (out.map Seg.s).flatten = (parts.map Seg.s).flatten := by
  intro parts
  induction parts with
  | nil =>
    intro out h
    cases h
    rfl
  | cons p ps ih =>
    intro out h
    rw [applyKw] at h
    cases hp : processPart kw fuel p with
    | none => rw [hp] at h; simp at h
    | some a =>
      cases hps : applyKw kw fuel ps with
      | none => rw [hp, hps] at h; simp at h
      | some b =>
        rw [hp, hps] at h
        cases h
        simp only [List.map_append, List.flatten_append, List.map_cons, List.flatten_cons]
        rw [processPart_flatten hp, ih hps]

/-- In one keyword pass, every highlighted span of the output is an input
part (earlier keywords' spans survive verbatim) or a case-insensitive copy
of the current keyword taken out of a plain part. -/
theorem applyKw_hl {kw : List Char} {fuel : Nat} :
    ∀ {parts out : List Seg}, applyKw kw fuel parts = some out →
      ∀ q ∈ out, q.raw = false → q ∈ parts ∨ lower q.s = lower kw := by
  intro parts
  induction parts with
  | nil =>
    intro out h
    cases h
    intro q hq
    simp at hq
  | cons p ps ih =>
    intro out h
    rw [applyKw] at h
    cases hp : processPart kw fuel p with
    | none => rw [hp] at h; simp at h
    | some a =>
      cases hps : applyKw kw fuel ps with
      | none => rw [hp, hps] at h; simp at h
      | some b =>
        rw [hp, hps] at h
        cases h
        intro q hq hraw
        rcases List.mem_append.mp hq with hq | hq
        · rcases processPart_hl hp q hq hraw with hq | hq
          · exact Or.inl (hq ▸ List.mem_cons_self p ps)
          · exact Or.inr hq
        · rcases ih hps q hq hraw with hq | hq
          · exact Or.inl (List.mem_cons_of_mem p hq)
          · exact Or.inr hq

/-- Running a keyword list keeps the characters. -/
theorem runKws_flatten {fuel : Nat} :
    ∀ {targets : List (List Char)} {parts out : List Seg},
      runKws fuel targets parts = some out →
      (out.map Seg.s).flatten = (parts.map Seg.s).flatten := by
  intro targets
  induction targets with
  | nil =>
    intro parts out h
    cases h
    rfl
  | cons kw rest ih =>
    intro parts out h
    rw [runKws] at h
    cases hk : applyKw kw fuel parts with
    | none => rw [hk] at h; simp at h
    | some mid =>
      rw [hk] at h
      have h2 : runKws fuel rest mid = some out := h
      rw [ih h2, applyKw_flatten hk]

/-- C1: for every text and target-keyword sequence, concatenating the text
fields of the parts list returned by `segment` / `highlightText` in order
reproduces the original text exactly. -/
theorem segment_roundtrip :
    (∀ (text : List Char) (targets : List (List Char)) (fuel : Nat) (parts : List Seg),
       segmentFuel text targets fuel = some parts → (parts.map Seg.s).flatten = text) ∧
    (∀ (kwKeys : List (List Char)) (text query : List Char) (fuel : Nat) (parts : List Seg),
       highlightParts kwKeys text query fuel = some parts → (parts.map Seg.s).flatten = text) := by
  have hseg : ∀ (text : List Char) (targets : List (List Char)) (fuel : Nat) (parts : List Seg),
      segmentFuel text targets fuel = some parts → (parts.map Seg.s).flatten = text := by
    intro text targets fuel parts h
    rw [segmentFuel] at h
    have := runKws_flatten h
    simpa using this
  refine ⟨hseg, ?_⟩
  intro kwKeys text query fuel parts h
  rw [highlightParts] at h
  by_cases hq : query = []
  · rw [if_pos hq] at h
    cases h
    simp
  · rw [if_neg hq] at h
    by_cases ht : targetKeywords query kwKeys = []
    · rw [if_pos ht] at h
      cases h
      simp
    · rw [if_neg ht] at h
      exact hseg text _ fuel parts h

/-- Witness for C1 at the spec's overlap example: text `"CATATA"` with
target keywords `["AT", "TA"]`. -/
theorem segment_roundtrip_witness :
    (([⟨['C'], true⟩, ⟨['A', 'T'], false⟩, ⟨['A', 'T'], false⟩, ⟨['A'], true⟩] : List Seg).map
      Seg.s).flatten = "CATATA".data :=
  segment_roundtrip.1 "CATATA".data [['A', 'T'], ['T', 'A']] 7
    [⟨['C'], true⟩, ⟨['A', 'T'], false⟩, ⟨['A', 'T'], false⟩, ⟨['A'], true⟩] (by decide)

/-- C2: keywords are processed in the given order over currently-plain
segments only — a segment already highlighted by an earlier keyword passes
through later passes unchanged — and every highlighted segment a pass adds
is a case-insensitive copy of its own keyword carved out of a plain
segment, so an earlier keyword keeps any contested range and highlighted
ranges never overlap. -/
theorem segment_precedence :
    (∀ (kw : List Char) (fuel : Nat) (p : Seg), p.raw = false →
       processPart kw fuel p = some [p]) ∧
    (∀ (kw : List Char) (fuel : Nat) (parts out : List Seg),
       applyKw kw fuel parts = some out →
       ∀ q ∈ out, q.raw = false → q ∈ parts ∨ lower q.s = lower kw) :=
  ⟨fun _ _ _ h => processPart_notRaw h, fun _ _ _ _ h => applyKw_hl h⟩

/-- Witness for C2: a highlighted segment survives a later keyword pass
untouched, and in the `"CATATA"` pass of `"AT"` the highlighted `"AT"`
spans are copies of that keyword. -/
theorem segment_precedence_witness :
    processPart ['t', 'a'] 3 ⟨['A', 'T'], false⟩ = some [⟨['A', 'T'], false⟩] ∧
    ((⟨['A', 'T'], false⟩ : Seg) ∈ [(⟨"CATATA".data, true⟩ : Seg)] ∨
      lower ['A', 'T'] = lower ['A', 'T']) :=
  ⟨segment_precedence.1 ['t', 'a'] 3 ⟨['A', 'T'], false⟩ rfl,
   segment_precedence.2 ['A', 'T'] 7 [⟨"CATATA".data, true⟩]
     [⟨['C'], true⟩, ⟨['A', 'T'], false⟩, ⟨['A', 'T'], false⟩, ⟨['A'], true⟩] (by decide)
     ⟨['A', 'T'], false⟩ (by decide) rfl⟩

/-- C5: every keyword is escaped into a pattern that any regex engine
interprets as exactly the literal keyword — the scan never fails and never
behaves as a pattern, and it reduces to the literal case-insensitive
occurrence scan of the keyword itself. -/
theorem escRx_literal :
    ∀ (kw s : List Char) (fuel : Nat),
      litPattern (escRx kw) = some kw ∧
      regexScan (escRx kw) s fuel = scanLoop kw s fuel 0 := by
  intro kw s fuel
  refine ⟨litPattern_escRx kw, ?_⟩
  rw [regexScan, litPattern_escRx]

/-- C6 evidence: the empty-string keyword is admitted by the target filter
for any non-empty query, and with it the segmenter's exec loop never
terminates — for every fuel bound the loop is still running — on any text,
so `segment` returns no segment list at all. -/
theorem segment_empty_keyword_diverges :
    (∀ (fuel : Nat) (text : List Char), segmentFuel text [[]] fuel = none) ∧
    targetKeywords ['a'] [[]] = [[]] := by
  constructor
  · intro fuel text
    rw [segmentFuel, runKws]
    have hp : processPart [] fuel ⟨text, true⟩ = none := by
      simp [processPart, regexScan, escRx, litPattern, scanLoop_nil_zero text fuel]
    rw [applyKw, hp]
    rfl
  · decide

/-- C7: with the empty query the target-keyword set is empty for any
non-empty index, and with no target keywords `segment` returns the text as
a single plain segment. -/
theorem empty_query_identity :
    ∀ index : List (List Char), index ≠ [] →
      targetKeywords [] index = [] ∧
      ∀ (text : List Char) (fuel : Nat), segmentFuel text [] fuel = some [⟨text, true⟩] :=
  fun _ _ => ⟨rfl, fun _ _ => rfl⟩

/-- Witness for C7 on the one-keyword index `["dna"]`. -/
theorem empty_query_identity_witness :
    targetKeywords [] ["dna".data] = [] ∧
    segmentFuel "x".data [] 5 = some [⟨"x".data, true⟩] :=
  ⟨(empty_query_identity ["dna".data] (by decide)).1,
   (empty_query_identity ["dna".data] (by decide)).2 "x".data 5⟩

/-- C3: the single match relation used both to select target keywords from
the index and to select a card's matchedTags holds iff the case-folded
candidate contains the case-folded query as a substring or vice versa; in
particular "bio"/"biology" match both ways and "Adenine" matches "aden"
and "ADEN". -/
theorem matchRel_spec :
    (∀ c q : List Char, q ≠ [] →
       (matchRel c q = true ↔
         (∃ l r, lower c = l ++ lower q ++ r) ∨ (∃ l r, lower q = l ++ lower c ++ r))) ∧
    (∀ (query : List Char) (kwKeys : List (List Char)), query ≠ [] →
       targetKeywords query kwKeys = kwKeys.filter fun k => matchRel k query) ∧
    (∀ (tags : List (List Char)) (query : List Char),
       matchedTagsOf tags query =
         if jsTrim (lower query) = [] then []
         else tags.filter fun tag => matchRel tag (jsTrim (lower query))) ∧
    (matchRel "bio".data "biology".data = true ∧ matchRel "biology".data "bio".data = true ∧
     matchRel "Adenine".data "aden".data = true ∧ matchRel "Adenine".data "ADEN".data = true) := by
  refine ⟨?_, ?_, ?_, by decide⟩
  · intro c q _
    rw [matchRel, Bool.or_eq_true, includes_iff, includes_iff]
  · intro query kwKeys hq
    rw [targetKeywords, if_neg hq]
  · intro tags query
    rw [matchedTagsOf]
    by_cases hq : jsTrim (lower query) = []
    · simp only [hq, if_pos rfl]
      rfl
    · rw [if_neg hq, if_neg hq]
      refine List.filter_congr fun tag _ => ?_
      rw [matchRel, lower_jsTrim_lower]

/-- Witness for C3 at tag `"bio"` and query `"biology"`. -/
theorem matchRel_spec_witness :
    matchRel "bio".data "biology".data = true ↔
      (∃ l r, lower "bio".data = l ++ lower "biology".data ++ r) ∨
      (∃ l r, lower "biology".data = l ++ lower "bio".data ++ r) :=
  matchRel_spec.1 "bio".data "biology".data (by decide)

/-- C4: matchedTags is exactly the card's tags satisfying the bidirectional
case-insensitive substring relation against the (caller-trimmed) query and
is empty on the empty query; isMatch holds iff matchedTags is non-empty; a
card is dimmed iff the query is non-empty and isMatch fails; with an empty
query nothing is dimmed and nothing is a match. -/
theorem cardMatch_spec :
    (∀ (tags : List (List Char)) (query : List Char),
       isMatchOf tags query = !(matchedTagsOf tags query).isEmpty) ∧
    (∀ (tags : List (List Char)) (query : List Char), jsTrim query = query →
       matchedTagsOf tags query =
         if query = [] then [] else tags.filter fun t => matchRel t query) ∧
    (∀ (tags : List (List Char)) (query : List Char), jsTrim query = query →
       (isDimOf tags query = true ↔ query ≠ [] ∧ isMatchOf tags query = false)) ∧
    (∀ tags : List (List Char),
       matchedTagsOf tags [] = [] ∧ isMatchOf tags [] = false ∧ isDimOf tags [] = false) := by
  have hlq : ∀ query : List Char, jsTrim query = query → jsTrim (lower query) = lower query := by
    intro query hq
    rw [← lower_jsTrim, hq]
  have hnil : ∀ query : List Char, lower query = [] ↔ query = [] := by
    intro query
    rw [lower]
    exact List.map_eq_nil_iff
  refine ⟨fun _ _ => rfl, ?_, ?_, fun tags => ⟨rfl, rfl, rfl⟩⟩
  · intro tags query hq
    rw [matchedTagsOf]
    simp only [hlq query hq]
    by_cases h0 : query = []
    · subst h0
      simp [lower]
    · rw [if_neg (fun hc => h0 ((hnil query).mp hc)), if_neg h0]
      simp only [matchRel]
  · intro tags query hq
    rw [isDimOf]
    simp only [hlq query hq, Bool.and_eq_true, Bool.not_eq_true']
    constructor
    · rintro ⟨h1, h2⟩
      refine ⟨fun hc => ?_, h2⟩
      subst hc
      simp [lower] at h1
    · rintro ⟨h1, h2⟩
      refine ⟨?_, h2⟩
      rw [List.isEmpty_eq_false]
      exact fun hc => h1 ((hnil query).mp hc)

/-- Witness for C4 on tags `["adenine", "pairing"]` and query `"aden"`. -/
theorem cardMatch_spec_witness :
    matchedTagsOf ["adenine".data, "pairing".data] "aden".data =
      (if "aden".data = [] then []
       else ["adenine".data, "pairing".data].filter fun t => matchRel t "aden".data) ∧
    (isDimOf ["adenine".data, "pairing".data] "aden".data = true ↔
      "aden".data ≠ [] ∧ isMatchOf ["adenine".data, "pairing".data] "aden".data = false) :=
  ⟨cardMatch_spec.2.1 ["adenine".data, "pairing".data] "aden".data (by decide),
   cardMatch_spec.2.2.1 ["adenine".data, "pairing".data] "aden".data (by decide)⟩

/-- C8: a tag chip is flagged as matched iff its case-folded form is
exactly equal to the case-folded form of some matchedTags entry, while
matchedTags membership itself is decided by the substring relation: the
tag "ab" is a substring of the matched tag "abxy" yet its chip is not
flagged. -/
theorem tag_chip_exact_match :
    (∀ (matched : List (List Char)) (tag : List Char),
       isTagMatch matched tag = true ↔ ∃ m, m ∈ matched ∧ lower m = lower tag) ∧
    (isTagMatch ["abxy".data] "ab".data = false ∧
     includes (lower "abxy".data) (lower "ab".data) = true ∧
     matchedTagsOf ["ab".data, "abxy".data] "xy".data = ["abxy".data]) := by
  refine ⟨?_, by decide, by decide, by decide⟩
  intro matched tag
  rw [isTagMatch, List.any_eq_true]
  constructor
  · rintro ⟨m, hm, he⟩
    exact ⟨m, hm, by simpa using he⟩
  · rintro ⟨m, hm, he⟩
    exact ⟨m, hm, by simpa using he⟩

/-- Membership after one `Set` insertion. -/
theorem mem_insertIfNew {α : Type} [DecidableEq α] {seen : List α} {a x : α} :
    x ∈ insertIfNew seen a ↔ x ∈ seen ∨ x = a := by
  rw [insertIfNew]
  by_cases h : a ∈ seen
  · rw [if_pos h]
    constructor
    · exact Or.inl
    · rintro (hx | rfl)
      · exact hx
      · exact h
  · rw [if_neg h]
    simp

/-- Filling a `Set` from `seen` appends exactly the first-seen-order
deduplication of the unseen elements. -/
theorem foldl_insertIfNew_eq {α : Type} [DecidableEq α] :
    ∀ (l seen : List α), l.foldl insertIfNew seen =
      seen ++ dedupFirstSpec (l.filter fun b => decide ¬(b ∈ seen))
  | [], seen => by simp [dedupFirstSpec]
  | a :: l, seen => by
    rw [List.foldl_cons, foldl_insertIfNew_eq l (insertIfNew seen a)]
    by_cases h : a ∈ seen
    · have h1 : insertIfNew seen a = seen := if_pos h
      have h2 : (a :: l).filter (fun b => decide ¬(b ∈ seen)) =
          l.filter fun b => decide ¬(b ∈ seen) := by
        rw [List.filter_cons]
        simp [h]
      rw [h1, h2]
    · have h1 : insertIfNew seen a = seen ++ [a] := if_neg h
      have h2 : (a :: l).filter (fun b => decide ¬(b ∈ seen)) =
          a :: (l.filter fun b => decide ¬(b ∈ seen)) := by
        rw [List.filter_cons]
        simp [h]
      have h3 : (l.filter fun b => decide ¬(b ∈ seen ++ [a])) =
          (l.filter fun b => decide ¬(b ∈ seen)).filter fun b => decide ¬(b = a) := by
        rw [List.filter_filter]
        refine List.filter_congr fun b _ => ?_
        by_cases hb : b ∈ seen <;> by_cases hba : b = a <;> simp [hb, hba]
      rw [h1, h2, dedupFirstSpec, h3]
      simp

/-- The `Set` spread equals the first-seen-order deduplication. -/
theorem setDedup_eq_dedupFirstSpec {α : Type} [DecidableEq α] (l : List α) :
    setDedup l = dedupFirstSpec l := by
  rw [setDedup, foldl_insertIfNew_eq l []]
  have h : (l.filter fun b => decide ¬(b ∈ ([] : List α))) = l := by
    refine List.filter_eq_self.mpr fun b _ => ?_
    simp
  rw [h, List.nil_append]

/-- Filling a `Set` preserves the no-duplicates invariant. -/
theorem foldl_insertIfNew_nodup {α : Type} [DecidableEq α] :
    ∀ l seen : List α, seen.Nodup → (l.foldl insertIfNew seen).Nodup
  | [], seen => fun h => h
  | a :: l, seen => fun h => by
    rw [List.foldl_cons]
    refine foldl_insertIfNew_nodup l (insertIfNew seen a) ?_
    rw [insertIfNew]
    by_cases ha : a ∈ seen
    · rwa [if_pos ha]
    · rw [if_neg ha]
      rw [List.nodup_append]
      refine ⟨h, List.nodup_singleton a, fun x hx hxa => ?_⟩
      rw [List.mem_singleton] at hxa
      exact ha (hxa ▸ hx)

/-- The keyword index contains no duplicate entries. -/
theorem setDedup_nodup {α : Type} [DecidableEq α] (l : List α) : (setDedup l).Nodup :=
  foldl_insertIfNew_nodup l [] List.nodup_nil

/-- Filling a `Set` collects exactly the seen and incoming elements. -/
theorem mem_foldl_insertIfNew {α : Type} [DecidableEq α] :
    ∀ (l seen : List α) (x : α), x ∈ l.foldl insertIfNew seen ↔ x ∈ seen ∨ x ∈ l
  | [], seen, x => by simp
  | a :: l, seen, x => by
    rw [List.foldl_cons, mem_foldl_insertIfNew l (insertIfNew seen a) x, mem_insertIfNew]
    constructor
    · rintro ((hx | rfl) | hx)
      · exact Or.inl hx
      · exact Or.inr (List.mem_cons_self _ _)
      · exact Or.inr (List.mem_cons_of_mem _ hx)
    · rintro (hx | hx)
      · exact Or.inl (Or.inl hx)
      · rcases List.mem_cons.mp hx with rfl | hx
        · exact Or.inl (Or.inr rfl)
        · exact Or.inr hx

/-- The keyword index has the same members as the flattened tag list. -/
theorem mem_setDedup {α : Type} [DecidableEq α] (l : List α) (x : α) :
    x ∈ setDedup l ↔ x ∈ l := by
  rw [setDedup, mem_foldl_insertIfNew l [] x]
  simp

/-- C9: `buildKeywordIndex` flattens every card's tags in traversal order
(absent tag lists contribute nothing) and keeps the distinct tag strings in
first-seen order — it equals the first-seen deduplication of the flattened
tags, is duplicate-free, keeps exactly the flattened members, and on a
corpus whose three cards each carry `"dna"` it yields one `"dna"` entry at
its first-occurrence position. -/
theorem buildKeywordIndex_spec :
    (∀ cards : List Card,
       buildKeywordIndex cards =
         dedupFirstSpec ((cards.map fun c => c.tags.getD []).flatten)) ∧
    (∀ l : List (List Char), (setDedup l).Nodup ∧ ∀ a, a ∈ setDedup l ↔ a ∈ l) ∧
    buildKeywordIndex
        [⟨1, none, some ["dna".data, "x".data], []⟩, ⟨1, none, some ["dna".data], []⟩,
         ⟨2, none, some ["y".data, "dna".data], []⟩] =
      ["dna".data, "x".data, "y".data] := by
  refine ⟨?_, fun l => ⟨setDedup_nodup l, mem_setDedup l⟩, by decide⟩
  intro cards
  rw [buildKeywordIndex, setDedup_eq_dedupFirstSpec]

/-- C10: the view groups cards by strictly ascending row value, the row
values are exactly the corpus's row values, each row is a stable ascending
sort by the defaulted column of the cards of that row in corpus order, and
the three-card example renders as row 1 = [col 1, col 2], row 2 = [col 1]. -/
theorem renderView_ordering :
    (∀ cards : List Card, List.Sorted (· < ·) (rowKeysSorted cards)) ∧
    (∀ (cards : List Card) (r : Int), r ∈ rowKeysSorted cards ↔ r ∈ cards.map Card.row) ∧
    (∀ l : List Card,
       List.Sorted (fun a b => colOr1 a ≤ colOr1 b) (sortByCol l) ∧ (sortByCol l).Perm l) ∧
    (∀ cards : List Card, renderView cards =
       (rowKeysSorted cards).map fun r => sortByCol (cards.filter fun c => decide (c.row = r))) ∧
    renderView [⟨2, some 1, none, []⟩, ⟨1, some 2, none, []⟩, ⟨1, some 1, none, []⟩] =
      [[⟨1, some 1, none, []⟩, ⟨1, some 2, none, []⟩], [⟨2, some 1, none, []⟩]] := by
  refine ⟨?_, ?_, ?_, fun _ => rfl, by decide⟩
  · intro cards
    have hs : List.Sorted (fun a b : Int => a ≤ b) (rowKeysSorted cards) :=
      List.sorted_insertionSort _ _
    have hn : (rowKeysSorted cards).Nodup :=
      ((List.perm_insertionSort _ _).nodup_iff).mpr (setDedup_nodup _)
    exact List.Sorted.lt_of_le hs hn
  · intro cards r
    rw [rowKeysSorted, List.mem_insertionSort, mem_setDedup]
  · intro l
    haveI : IsTotal Card fun a b => colOr1 a ≤ colOr1 b := ⟨fun a b => le_total _ _⟩
    haveI : IsTrans Card fun a b => colOr1 a ≤ colOr1 b := ⟨fun _ _ _ hab hbc => le_trans hab hbc⟩
    exact ⟨List.sorted_insertionSort _ _, List.perm_insertionSort _ _⟩
